import Mathlib

/-!
Verification of the Piney ingestion pipeline (src/Piney/pc_main_baseline.py)
against its natural-language specification.

The Python module defines most functions twice; at module level the second
definition shadows the first, so the second copy of each function is the
effective one.  Where the two copies differ this development models both and
says so in the doc comment.  The external collaborators (tiktoken tokenizer,
OpenAI embedding provider, Pinecone client, the filesystem) are modelled as
function parameters, exactly as the spec describes them (encode/decode,
embedding_fn, write calls, per-file extraction results).
-/

namespace Piney

/-- A document unit as built by process_directory (lines 395-398): a dict with
an id string and the chunk text. -/
structure DocUnit where
  id : String
  text : String
deriving Repr, DecidableEq

/-- A Pinecone vector as built by upsert_data (lines 470-477): id, embedding
values and the text stored as metadata.  The embedding payload type is kept
opaque as a parameter V (the code never inspects it). -/
structure PineVec (V : Type) where
  id : String
  values : V
  metadata_text : String
deriving Repr, DecidableEq

/-- Python's str.strip(): remove leading and trailing whitespace.  Written
over the character list so that it is structurally recursive and hence
evaluable by the kernel. -/
def pyStrip (s : String) : String :=
  String.mk (((s.toList.dropWhile Char.isWhitespace).reverse.dropWhile
    Char.isWhitespace).reverse)

/-- Truthiness test on a stripped chunk, from the guard at line 394 of
process_directory: a chunk is accepted when chunk.strip() is non-empty. -/
def isAccepted (c : String) : Bool := pyStrip c != ""

/-- Fuel-driven worker for the slicing loop shared by chunk_text
(lines 333-341: while start < len(tokens): take tokens[start:start+max_tokens])
and upsert_data (lines 481-482: for i in range(0, len(vectors), batch_size):
vectors[i:i+batch_size]).  Each step takes the next k elements and recurses on
the rest; with fuel at least the list length and 0 < k the fuel never runs
out, which matches the loop exactly. -/
def sliceWindowsGo (k : Nat) : Nat → List α → List (List α)
  | _, [] => []
  | 0, _ :: _ => []
  | fuel + 1, a :: l => (a :: l).take k :: sliceWindowsGo k fuel ((a :: l).drop k)

/-- The slicing loop of the source, with fuel fixed to the list length (enough
for every positive window size k; for k = 0 the Python loop does not
terminate, a case no caller reaches since max_tokens defaults to 1000 and the
batch size is checked positive before slicing). -/
def sliceWindows (l : List α) (k : Nat) : List (List α) :=
  sliceWindowsGo k l.length l

/-- chunk_text, first definition (lines 131-151): encode the text, return it
unchanged as a single chunk when within max_tokens, otherwise decode each
window of max_tokens tokens.  The tokenizer is the external Tokenizer Adapter
collaborator, passed as the enc/dec pair.  The second, module-effective copy
(lines 321-341) has the identical structure but obtains its tokens from the
undefined name tokenize_text; it is modelled separately as chunk_text_dup. -/
def chunk_text (enc : String → List Nat) (dec : List Nat → String)
    (text : String) (max_tokens : Nat) : List String :=
  let tokens := enc text
  if tokens.length ≤ max_tokens then [text]
  else (sliceWindows tokens max_tokens).map dec

/-- chunk_text, second and module-effective definition (lines 321-341).  Its
token acquisition step at line 327 is a call to tokenize_text, a name defined
nowhere in the module, so in Python the binding raises NameError before the
length test runs; the rest of the body is kept to mirror the source but is
unreachable. -/
def chunk_text_dup (dec : List Nat → String)
    (text : String) (max_tokens : Nat) : Except String (List String) := do
  let tokens ← (Except.error "NameError: name tokenize_text is not defined" :
    Except String (List Nat))
  if tokens.length ≤ max_tokens then return [text]
  else return (sliceWindows tokens max_tokens).map dec

/-- process_file (lines 343-384) with the extraction collaborator abstracted:
any extraction failure (IOError, PDF or DOCX error, any unexpected exception)
is caught inside the function and yields an empty chunk list; a successful
extraction hands the text to the chunker (the call at line 382). -/
def process_file (extracted : Except String String)
    (chunker : String → List String) : List String :=
  match extracted with
  | Except.error _ => []
  | Except.ok text => chunker text

/-- Inner loop of process_directory (lines 393-399): walk the chunks of one
file, keep the non-blank ones, give each an id "doc" ++ counter and advance
the single run-wide counter once per accepted chunk.  Returns the units and
the counter value to carry to the next file. -/
def collectChunks : List String → Nat → List DocUnit × Nat
  | [], n => ([], n)
  | c :: rest, n =>
    if isAccepted c then
      (⟨"doc" ++ toString n, c⟩ :: (collectChunks rest (n + 1)).1,
        (collectChunks rest (n + 1)).2)
    else collectChunks rest n

/-- Outer loop of process_directory (lines 389-399): fold over the files in
traversal order, threading the doc_id counter (initialised to 1 at line 388)
across files. -/
def pdAux : List (List String) → Nat → List DocUnit
  | [], _ => []
  | chunks :: rest, n =>
    (collectChunks chunks n).1 ++ pdAux rest (collectChunks chunks n).2

/-- process_directory (lines 386-400), with the filesystem walk abstracted to
the list of per-file extraction results in traversal order and the chunker
(chunk_text with the run's tokenizer and default max_tokens) passed as the
collaborator it is. -/
def process_directory (files : List (Except String String))
    (chunker : String → List String) : List DocUnit :=
  pdAux (files.map (fun f => process_file f chunker)) 1

/-- select_or_create_namespace, second and module-effective definition
(lines 308-318): a provided namespace (even the empty string) is returned
as-is; non-interactive mode returns "default_namespace"; otherwise the
stripped interactive input is returned, with empty input mapped to None
(line 318).  The first copy (lines 118-128) differs only at that last line,
returning the empty string instead of None. -/
def select_or_create_namespace (provided : Option String)
    (nonInteractive : Bool) (userInput : String) : Option String :=
  match provided with
  | some ns => some ns
  | none =>
    if nonInteractive then some "default_namespace"
    else
      let stripped := pyStrip userInput
      if stripped != "" then some stripped else none

/-- The write-path namespace resolution at line 478 of upsert_data:
ns = namespace if namespace else "" — Python truthiness sends both None and
the empty string to the empty string. -/
def resolve_ns (namespaceArg : Option String) : String :=
  match namespaceArg with
  | none => ""
  | some s => if s = "" then "" else s

/-- The batch-size selection at line 467 of upsert_data:
batch_size = args.batch_size if hasattr(args, 'batch_size') and
args.batch_size else 100.  none models a missing batch_size attribute (the
program's own argument parser never defines one); a present integer passes
the truthiness guard exactly when it is nonzero, so any nonzero value —
including a negative one — is used as-is. -/
def selectBatchSize (batchSizeArg : Option Int) : Int :=
  match batchSizeArg with
  | none => 100
  | some b => if b ≠ 0 then b else 100

/-- embed_text (lines 438-453): one call to the embedding provider with the
full text list, returning one embedding per response item.  The provider is
the external collaborator, modelled as the function embed_fn. -/
def embed_text (embed_fn : List String → List V) (texts : List String) :
    List V :=
  embed_fn texts

/-- upsert_data (lines 456-486): select the batch size, embed all document
texts in one call, pair documents with embeddings positionally (Python's zip,
which stops at the shorter list), resolve the namespace, and slice the vector
list into consecutive batches.  The result is the ordered list of write calls
(one list of vectors per index.upsert call) together with the namespace they
are written under.  Python's range(0, n, step) with a negative step runs zero
iterations, hence the non-positive guard; a zero batch size never reaches the
loop because selectBatchSize maps it to 100. -/
def upsert_data (documents : List DocUnit) (embed_fn : List String → List V)
    (batchSizeArg : Option Int) (namespaceArg : Option String) :
    List (List (PineVec V)) × String :=
  let batch_size := selectBatchSize batchSizeArg
  let embeddings := embed_text embed_fn (documents.map DocUnit.text)
  let vectors := (documents.zip embeddings).map
    (fun p => ⟨p.1.id, p.2, p.1.text⟩)
  let ns := resolve_ns namespaceArg
  (if batch_size ≤ 0 then [] else sliceWindows vectors batch_size.toNat, ns)

/-- Observable outcome of one run of main: the exit code, how many embedding
provider calls were issued, the upsert write calls, and whether the
"No valid documents found" terminal condition was reported. -/
structure RunOutcome (V : Type) where
  exitCode : Nat
  embedCalls : Nat
  writes : List (List (PineVec V))
  reportedNoDocs : Bool
deriving Repr, DecidableEq

/-- The ingest path of main (lines 544-553 with get_directory's checks at
lines 533-540): exit 1 on an invalid or unreadable directory; collect the
documents; on an empty collection report "No valid documents found" and exit
1 before initialize and upsert_data run, so no embedding call and no write
call is issued; otherwise resolve the namespace and run upsert_data, which
issues exactly one embedding call.  The interactive query loop that follows a
successful non-interactive run is outside this model. -/
def main_run (dirValid dirReadable : Bool)
    (files : List (Except String String)) (chunker : String → List String)
    (embed_fn : List String → List V) (batchSizeArg : Option Int)
    (nsProvided : Option String) (nonInteractive : Bool) (userNs : String) :
    RunOutcome V :=
  if dirValid = false then ⟨1, 0, [], false⟩
  else if dirReadable = false then ⟨1, 0, [], false⟩
  else
    let documents := process_directory files chunker
    if documents.isEmpty then ⟨1, 0, [], true⟩
    else
      let ns := select_or_create_namespace nsProvided nonInteractive userNs
      ⟨0, 1, (upsert_data documents embed_fn batchSizeArg ns).1, false⟩

/-- A concrete character-level tokenizer used to instantiate the Tokenizer
Adapter collaborator in witnesses: encode maps each character to its code
point. -/
def charEnc (s : String) : List Nat := s.toList.map Char.toNat

/-- Character-level decode for witnesses: each token becomes one character,
so decode is length-preserving and re-encoding a decoded list never grows
it. -/
def charDec (ts : List Nat) : String := String.mk (ts.map Char.ofNat)

/-- Four document units, as process_directory would emit for four accepted
chunks. -/
def docsFour : List DocUnit :=
  [⟨"doc1", "t1"⟩, ⟨"doc2", "t2"⟩, ⟨"doc3", "t3"⟩, ⟨"doc4", "t4"⟩]

/-- Five document units for exercising the batching arithmetic. -/
def docsFive : List DocUnit :=
  [⟨"doc1", "a"⟩, ⟨"doc2", "b"⟩, ⟨"doc3", "c"⟩, ⟨"doc4", "d"⟩, ⟨"doc5", "e"⟩]

/-- An embedding provider returning one vector per input text for five
texts. -/
def embedFive : List String → List Nat := fun _ => [0, 1, 2, 3, 4]

lemma charEnc_charDec_length (ts : List Nat) :
    (charEnc (charDec ts)).length = ts.length := by
  simp [charEnc, charDec, String.toList]

lemma charEnc_charDec_le (ts : List Nat) :
    (charEnc (charDec ts)).length ≤ ts.length :=
  le_of_eq (charEnc_charDec_length ts)

lemma sliceWindowsGo_nil (k fuel : Nat) :
    sliceWindowsGo (α := α) k fuel [] = [] := by
  cases fuel <;> rfl

lemma sliceWindowsGo_flatten (k : Nat) (hk : 0 < k) :
    ∀ (fuel : Nat) (l : List α), l.length ≤ fuel →
      (sliceWindowsGo k fuel l).flatten = l := by
  intro fuel
  induction fuel with
  | zero =>
    intro l hl
    have hnil : l = [] := List.eq_nil_of_length_eq_zero (Nat.le_zero.mp hl)
    subst hnil
    rfl
  | succ fuel ih =>
    intro l hl
    cases l with
    | nil => rfl
    | cons a l' =>
      have hdrop : ((a :: l').drop k).length ≤ fuel := by
        rw [List.length_drop]
        simp only [List.length_cons] at hl ⊢
        omega
      simp only [sliceWindowsGo, List.flatten_cons, ih _ hdrop]
      exact List.take_append_drop k (a :: l')

lemma sliceWindowsGo_length (k : Nat) (hk : 0 < k) :
    ∀ (fuel : Nat) (l : List α), l.length ≤ fuel →
      (sliceWindowsGo k fuel l).length = (l.length + k - 1) / k := by
  intro fuel
  induction fuel with
  | zero =>
    intro l hl
    have hnil : l = [] := List.eq_nil_of_length_eq_zero (Nat.le_zero.mp hl)
    subst hnil
    rw [sliceWindowsGo_nil]
    simp only [List.length_nil, Nat.zero_add]
    exact (Nat.div_eq_of_lt (by omega)).symm
  | succ fuel ih =>
    intro l hl
    cases l with
    | nil =>
      rw [sliceWindowsGo_nil]
      simp only [List.length_nil, Nat.zero_add]
      exact (Nat.div_eq_of_lt (by omega)).symm
    | cons a l' =>
      have hdrop : ((a :: l').drop k).length ≤ fuel := by
        rw [List.length_drop]
        simp only [List.length_cons] at hl ⊢
        omega
      simp only [sliceWindowsGo, List.length_cons, ih _ hdrop, List.length_drop,
        List.length_cons]
      rw [show l'.length + 1 + k - 1 = l'.length + k by omega,
        Nat.add_div_right _ hk]
      have hcongr : (l'.length + 1 - k + k - 1) / k = l'.length / k := by
        rcases le_or_lt k (l'.length + 1) with hle | hlt
        · rw [show l'.length + 1 - k + k - 1 = l'.length by omega]
        · rw [show l'.length + 1 - k = 0 by omega]
          rw [Nat.div_eq_of_lt (show 0 + k - 1 < k by omega),
            Nat.div_eq_of_lt (show l'.length < k by omega)]
      omega

lemma sliceWindowsGo_mem_le (k : Nat) :
    ∀ (fuel : Nat) (l : List α), ∀ w ∈ sliceWindowsGo k fuel l, w.length ≤ k := by
  intro fuel
  induction fuel with
  | zero =>
    intro l w hw
    cases l <;> simp [sliceWindowsGo] at hw
  | succ fuel ih =>
    intro l w hw
    cases l with
    | nil => simp [sliceWindowsGo] at hw
    | cons a l' =>
      simp only [sliceWindowsGo, List.mem_cons] at hw
      rcases hw with rfl | hw
      · rw [List.length_take]
        omega
      · exact ih _ w hw

lemma sliceWindowsGo_dropLast (k : Nat) (hk : 0 < k) :
    ∀ (fuel : Nat) (l : List α), l.length ≤ fuel →
      ∀ w ∈ (sliceWindowsGo k fuel l).dropLast, w.length = k := by
  intro fuel
  induction fuel with
  | zero =>
    intro l hl w hw
    have hnil : l = [] := List.eq_nil_of_length_eq_zero (Nat.le_zero.mp hl)
    subst hnil
    simp [sliceWindowsGo] at hw
  | succ fuel ih =>
    intro l hl w hw
    cases l with
    | nil => simp [sliceWindowsGo] at hw
    | cons a l' =>
      have hdrop : ((a :: l').drop k).length ≤ fuel := by
        rw [List.length_drop]
        simp only [List.length_cons] at hl ⊢
        omega
      simp only [sliceWindowsGo] at hw
      cases hR : sliceWindowsGo k fuel ((a :: l').drop k) with
      | nil => simp [hR] at hw
      | cons b r =>
        rw [hR, List.dropLast_cons₂, List.mem_cons] at hw
        have hlong : k < l'.length + 1 := by
          by_contra hcon
          have hd : (a :: l').drop k = [] :=
            List.drop_eq_nil_iff.mpr (by simp only [List.length_cons]; omega)
          rw [hd, sliceWindowsGo_nil] at hR
          exact List.noConfusion hR
        rcases hw with rfl | hw
        · rw [List.length_take, List.length_cons]
          omega
        · exact ih _ hdrop w (by rw [hR]; exact hw)

lemma sliceWindowsGo_getLast (k : Nat) (hk : 0 < k) :
    ∀ (fuel : Nat) (l : List α), l.length ≤ fuel → l ≠ [] →
      ((sliceWindowsGo k fuel l).getLast?).map List.length =
        some (if l.length % k = 0 then k else l.length % k) := by
  intro fuel
  induction fuel with
  | zero =>
    intro l hl hne
    exact absurd (List.eq_nil_of_length_eq_zero (Nat.le_zero.mp hl)) hne
  | succ fuel ih =>
    intro l hl hne
    cases l with
    | nil => exact absurd rfl hne
    | cons a l' =>
      have hdrop : ((a :: l').drop k).length ≤ fuel := by
        rw [List.length_drop]
        simp only [List.length_cons] at hl ⊢
        omega
      simp only [sliceWindowsGo]
      by_cases hd : (a :: l').drop k = []
      · have hlen : l'.length + 1 ≤ k := by
          have := List.drop_eq_nil_iff.mp hd
          simp only [List.length_cons] at this
          omega
        rw [hd, sliceWindowsGo_nil]
        have hsingle : ∀ x : List α, ([x] : List (List α)).getLast? = some x :=
          fun x => rfl
        rw [hsingle, Option.map_some']
        simp only [List.length_take, List.length_cons]
        congr 1
        rcases Nat.lt_or_ge (l'.length + 1) k with hlt | hge
        · rw [Nat.mod_eq_of_lt hlt, if_neg (by omega)]
          omega
        · have heq : l'.length + 1 = k := by omega
          rw [heq, Nat.mod_self, if_pos rfl]
          omega
      · have hlong : k < l'.length + 1 := by
          have := List.drop_eq_nil_iff.not.mp hd
          simp only [List.length_cons] at this
          omega
        cases hR : sliceWindowsGo k fuel ((a :: l').drop k) with
        | nil =>
          exfalso
          have := ih _ hdrop hd
          rw [hR] at this
          simp at this
        | cons b r =>
          rw [List.getLast?_cons_cons]
          have := ih _ hdrop hd
          rw [hR] at this
          rw [this]
          congr 1
          rw [List.length_drop, List.length_cons]
          have hmod : (l'.length + 1 - k) % k = (l'.length + 1) % k := by
            conv_rhs => rw [show l'.length + 1 = (l'.length + 1 - k) + k by omega]
            rw [Nat.add_mod_right]
          rw [hmod]

lemma sliceWindows_flatten (l : List α) (k : Nat) (hk : 0 < k) :
    (sliceWindows l k).flatten = l :=
  sliceWindowsGo_flatten k hk l.length l le_rfl

lemma sliceWindows_length (l : List α) (k : Nat) (hk : 0 < k) :
    (sliceWindows l k).length = (l.length + k - 1) / k :=
  sliceWindowsGo_length k hk l.length l le_rfl

lemma sliceWindows_mem_le (l : List α) (k : Nat) :
    ∀ w ∈ sliceWindows l k, w.length ≤ k :=
  sliceWindowsGo_mem_le k l.length l

lemma sliceWindows_dropLast (l : List α) (k : Nat) (hk : 0 < k) :
    ∀ w ∈ (sliceWindows l k).dropLast, w.length = k :=
  sliceWindowsGo_dropLast k hk l.length l le_rfl

lemma sliceWindows_getLast (l : List α) (k : Nat) (hk : 0 < k) (hne : l ≠ []) :
    ((sliceWindows l k).getLast?).map List.length =
      some (if l.length % k = 0 then k else l.length % k) :=
  sliceWindowsGo_getLast k hk l.length l le_rfl hne

lemma collectChunks_snd (chunks : List String) :
    ∀ n : Nat, (collectChunks chunks n).2 =
      n + (chunks.filter isAccepted).length := by
  induction chunks with
  | nil => intro n; simp [collectChunks]
  | cons c rest ih =>
    intro n
    cases hc : isAccepted c with
    | false => simp [collectChunks, hc, List.filter_cons, ih n]
    | true =>
      simp only [collectChunks, hc, if_true, List.filter_cons, ih (n + 1),
        List.length_cons]
      omega

lemma collectChunks_ids (chunks : List String) :
    ∀ n : Nat, (collectChunks chunks n).1.map DocUnit.id =
      (List.range ((chunks.filter isAccepted).length)).map
        (fun i => "doc" ++ toString (n + i)) := by
  induction chunks with
  | nil => intro n; simp [collectChunks]
  | cons c rest ih =>
    intro n
    cases hc : isAccepted c with
    | false => simp only [collectChunks, hc, if_false, List.filter_cons, hc,
        Bool.false_eq_true, ite_false, ih n]
    | true =>
      simp only [collectChunks, hc, if_true, List.filter_cons,
        ite_true, List.length_cons, List.map_cons]
      rw [ih (n + 1), List.range_succ_eq_map, List.map_cons, List.map_map]
      have harg : (fun i => "doc" ++ toString (n + i)) ∘ Nat.succ =
          fun i => "doc" ++ toString (n + 1 + i) := by
        funext i
        simp only [Function.comp]
        rw [show n + Nat.succ i = n + 1 + i by omega]
      rw [harg]
      simp

lemma pdAux_ids :
    ∀ (L : List (List String)) (n : Nat), (pdAux L n).map DocUnit.id =
      (List.range ((L.flatten.filter isAccepted).length)).map
        (fun i => "doc" ++ toString (n + i)) := by
  intro L
  induction L with
  | nil => intro n; simp [pdAux]
  | cons chunks rest ih =>
    intro n
    simp only [pdAux, List.map_append, List.flatten_cons, List.filter_append,
      List.length_append]
    rw [collectChunks_ids, collectChunks_snd, ih, List.range_add,
      List.map_append, List.map_map]
    congr 1
    have harg : (fun i => "doc" ++ toString (n + i)) ∘
        (fun x => (chunks.filter isAccepted).length + x) =
        fun i => "doc" ++ toString (n + (chunks.filter isAccepted).length + i) := by
      funext i
      simp only [Function.comp]
      rw [show n + ((chunks.filter isAccepted).length + i) =
        n + (chunks.filter isAccepted).length + i by omega]
    rw [harg]

lemma pdAux_insert_nil :
    ∀ (A B : List (List String)) (n : Nat),
      pdAux (A ++ [] :: B) n = pdAux (A ++ B) n := by
  intro A
  induction A with
  | nil => intro B n; simp [pdAux, collectChunks]
  | cons chunks A ih => intro B n; simp [pdAux, ih]

/-- Claim C1, counterexample: with four documents and an embedding collaborator
that returns only three vectors, upsert_data raises nothing and writes exactly
the three units that received a vector — Python's zip at line 476 truncates
the pairing silently, so the mismatch is not surfaced to the caller. -/
theorem upsert_mismatch_silently_truncated :
    (((upsert_data docsFour (fun _ => [1, 2, 3]) none none).1).flatten).map
      PineVec.id = ["doc1", "doc2", "doc3"] := by rfl

/-- Claim C1, amended: the embedding step performs no length check; units are
paired with returned vectors positionally, the pairing truncates to the
shorter list, and exactly the units that received a vector are written
(flattening the write calls gives the zipped list, of length the minimum of
the two lengths). -/
theorem upsert_zip_truncation (V : Type) (documents : List DocUnit)
    (embed_fn : List String → List V) (namespaceArg : Option String) :
    ((upsert_data documents embed_fn none namespaceArg).1).flatten =
      (documents.zip (embed_fn (documents.map DocUnit.text))).map
        (fun p => ⟨p.1.id, p.2, p.1.text⟩) ∧
    (((upsert_data documents embed_fn none namespaceArg).1).flatten).length =
      min documents.length (embed_fn (documents.map DocUnit.text)).length := by
  have hflat : ((upsert_data documents embed_fn none namespaceArg).1).flatten =
      (documents.zip (embed_fn (documents.map DocUnit.text))).map
        (fun p => (⟨p.1.id, p.2, p.1.text⟩ : PineVec V)) := by
    simp only [upsert_data, selectBatchSize, embed_text]
    rw [if_neg (by norm_num)]
    exact sliceWindows_flatten _ _ (by norm_num)
  refine ⟨hflat, ?_⟩
  rw [hflat, List.length_map, List.length_zip]

/-- Claim C2: every chunk produced by chunk_text re-encodes to at most
max_tokens tokens.  The single-chunk case returns the original text, whose
encoding is within the limit by the branch condition; each further chunk
decodes a window of at most max_tokens tokens, and the Tokenizer Adapter
contract (re-encoding a decoded token list never yields more tokens than the
list held) bounds its re-encoded length. -/
theorem chunk_reencode_le (enc : String → List Nat) (dec : List Nat → String)
    (hRT : ∀ ts : List Nat, (enc (dec ts)).length ≤ ts.length)
    (t : String) (M : Nat) (hM : 0 < M) :
    ∀ c ∈ chunk_text enc dec t M, (enc c).length ≤ M := by
  intro c hc
  by_cases hle : (enc t).length ≤ M
  · simp only [chunk_text, hle, if_true, List.mem_singleton] at hc
    subst hc
    exact hle
  · simp only [chunk_text, hle, if_false, List.mem_map] at hc
    obtain ⟨w, hw, rfl⟩ := hc
    exact le_trans (hRT w) (sliceWindows_mem_le _ _ w hw)

/-- Claim C2, witness at the character tokenizer, text "ab", limit 1. -/
theorem chunk_reencode_le_witness : (charEnc "b").length ≤ 1 :=
  chunk_reencode_le charEnc charDec charEnc_charDec_le "ab" 1 (by decide) "b"
    (by decide)

/-- Claim C3, counterexample: a negative batch_size passes the Python
truthiness guard at line 467 (any nonzero integer is truthy) and is used
as-is instead of the default 100. -/
theorem batch_size_negative_used : selectBatchSize (some (-1)) = -1 := by
  decide

/-- Claim C3, amended: batch_size falls back to the default 100 when the
attribute is missing or when it equals zero; any nonzero value, including a
negative one, is used as given. -/
theorem batch_size_default_amended :
    selectBatchSize none = 100 ∧ selectBatchSize (some 0) = 100 ∧
      ∀ b : Int, b ≠ 0 → selectBatchSize (some b) = b := by
  refine ⟨rfl, by decide, ?_⟩
  intro b hb
  simp [selectBatchSize, hb]

/-- Claim C3, witness for the amended statement at batch_size -5. -/
theorem batch_size_default_amended_witness : selectBatchSize (some (-5)) = -5 :=
  batch_size_default_amended.2.2 (-5) (by decide)

/-- Claim C4, counterexample: the effective resolver maps empty interactive
namespace input to None (line 318), not to the empty string. -/
theorem empty_namespace_input_resolves_to_none :
    select_or_create_namespace none false "" = none := by decide

/-- Claim C4, amended: an explicitly provided empty string is honoured as a
namespace and kept by the write path, and the write path resolves the null
state to the empty-string default before any write; but resolving an empty
interactive namespace input yields null, not the empty string — the
empty-string default only materialises at the write path (line 478). -/
theorem namespace_resolution_amended (b : Bool) (inp : String) :
    select_or_create_namespace (some "") b inp = some "" ∧
    resolve_ns (some "") = "" ∧
    resolve_ns none = "" ∧
    select_or_create_namespace none false "" = none ∧
    resolve_ns (select_or_create_namespace none false "") = "" := by
  refine ⟨rfl, by decide, rfl, by decide, by decide⟩

/-- Claim C5: the module-effective chunk_text (the second definition,
lines 321-341) fails on every input, the empty string included, because its
token acquisition step names tokenize_text, which is defined nowhere in the
module; the NameError fires before the length test, so the identity
single-chunk path is unreachable.  The first definition (lines 131-151,
modelled as chunk_text) has the behaviour the claim describes. -/
theorem chunk_text_dup_raises (dec : List Nat → String) (t : String)
    (M : Nat) :
    chunk_text_dup dec t M =
      Except.error "NameError: name tokenize_text is not defined" := rfl

/-- Claim C6: when the token sequence exceeds max_tokens, the chunks are the
decoded token windows, and those windows are consecutive intervals of exactly
max_tokens tokens (the last possibly shorter) that partition the encoded
sequence with no gap or overlap — their concatenation reconstructs it
exactly, so the final window ends at the sequence length. -/
theorem chunk_windows_reconstruct (enc : String → List Nat)
    (dec : List Nat → String) (t : String) (M : Nat) (hM : 0 < M)
    (hGt : M < (enc t).length) :
    chunk_text enc dec t M = (sliceWindows (enc t) M).map dec ∧
    (sliceWindows (enc t) M).flatten = enc t ∧
    (∀ w ∈ (sliceWindows (enc t) M).dropLast, w.length = M) ∧
    (∀ w ∈ sliceWindows (enc t) M, w.length ≤ M) := by
  refine ⟨?_, sliceWindows_flatten _ _ hM, sliceWindows_dropLast _ _ hM,
    sliceWindows_mem_le _ _⟩
  simp only [chunk_text]
  rw [if_neg (by omega)]

/-- Claim C6, witness at the character tokenizer, text "ab", limit 1. -/
theorem chunk_windows_reconstruct_witness :
    (sliceWindows (charEnc "ab") 1).flatten = charEnc "ab" :=
  (chunk_windows_reconstruct charEnc charDec "ab" 1 (by decide) (by decide)).2.1

/-- Claim C7: over any traversal — extraction failures included — the
collected units carry the ids "doc1", "doc2", …, "docN" in order, where N is
the number of accepted non-blank chunks: the counter starts at 1 and advances
exactly once per accepted unit, so the ids are contiguous and gap-free. -/
theorem process_directory_ids (files : List (Except String String))
    (chunker : String → List String) :
    (process_directory files chunker).map DocUnit.id =
      (List.range (((files.map (fun f => process_file f chunker)).flatten.filter
        isAccepted).length)).map (fun i => "doc" ++ toString (i + 1)) := by
  unfold process_directory
  rw [pdAux_ids]
  congr 1
  funext i
  rw [show 1 + i = i + 1 by omega]

/-- Claim C8: with a positive batch size B and an embedding collaborator
honouring its length contract, upsert_data issues exactly
ceil(N / B) = (N + B - 1) / B write calls; flattening them in order recovers
every unit's id exactly once in collector order; every batch before the last
has size exactly B, every batch has size at most B, and the last batch has
size N mod B when that is nonzero and B otherwise. -/
theorem upsert_batching (V : Type) (documents : List DocUnit)
    (embed_fn : List String → List V) (namespaceArg : Option String)
    (B : Int) (hB : 0 < B)
    (hLen : (embed_fn (documents.map DocUnit.text)).length =
      documents.length) :
    ((upsert_data documents embed_fn (some B) namespaceArg).1).length =
      (documents.length + B.toNat - 1) / B.toNat ∧
    (((upsert_data documents embed_fn (some B) namespaceArg).1).flatten).map
      PineVec.id = documents.map DocUnit.id ∧
    (∀ w ∈ ((upsert_data documents embed_fn (some B) namespaceArg).1).dropLast,
      w.length = B.toNat) ∧
    (∀ w ∈ (upsert_data documents embed_fn (some B) namespaceArg).1,
      w.length ≤ B.toNat) ∧
    (documents ≠ [] →
      (((upsert_data documents embed_fn (some B) namespaceArg).1).getLast?).map
        List.length = some (if documents.length % B.toNat = 0 then B.toNat
          else documents.length % B.toNat)) := by
  have hBne : B ≠ 0 := by omega
  have hBt : 0 < B.toNat := by omega
  have hwrites : (upsert_data documents embed_fn (some B) namespaceArg).1 =
      sliceWindows ((documents.zip (embed_fn (documents.map DocUnit.text))).map
        (fun p => (⟨p.1.id, p.2, p.1.text⟩ : PineVec V))) B.toNat := by
    simp only [upsert_data, selectBatchSize, embed_text, hBne, ite_true,
      ne_eq, not_false_eq_true]
    rw [if_neg (by omega)]
  set vectors := (documents.zip (embed_fn (documents.map DocUnit.text))).map
    (fun p => (⟨p.1.id, p.2, p.1.text⟩ : PineVec V)) with hv
  have hveclen : vectors.length = documents.length := by
    rw [hv, List.length_map, List.length_zip, hLen]
    simp
  refine ⟨?_, ?_, ?_, ?_, ?_⟩
  · rw [hwrites, sliceWindows_length _ _ hBt, hveclen]
  · rw [hwrites, sliceWindows_flatten _ _ hBt, hv, List.map_map]
    have hcomp : (PineVec.id ∘ fun p : DocUnit × V =>
        (⟨p.1.id, p.2, p.1.text⟩ : PineVec V)) =
        DocUnit.id ∘ Prod.fst := rfl
    rw [hcomp, ← List.map_map, List.map_fst_zip _ _ (le_of_eq hLen.symm)]
  · rw [hwrites]
    exact sliceWindows_dropLast _ _ hBt
  · rw [hwrites]
    exact sliceWindows_mem_le _ _
  · intro hne
    have hvne : vectors ≠ [] := by
      intro hcon
      rw [hcon] at hveclen
      exact hne (List.eq_nil_of_length_eq_zero hveclen.symm)
    rw [hwrites, sliceWindows_getLast _ _ hBt hvne, hveclen]

/-- Claim C8, witness: five units with batch size 2 give ceil(5 / 2) = 3
write calls. -/
theorem upsert_batching_witness :
    ((upsert_data docsFive embedFive (some 2) none).1).length = 3 :=
  ((upsert_batching Nat docsFive embedFive none 2 (by decide) (by rfl)).1).trans
    (by decide)

/-- Claim C9: when collection yields zero documents, main reports the
"No valid documents found" terminal condition and exits with status 1 before
initialize and upsert_data run, so no embedding call and no write call is
issued. -/
theorem no_documents_aborts (V : Type) (files : List (Except String String))
    (chunker : String → List String) (embed_fn : List String → List V)
    (batchSizeArg : Option Int) (nsProvided : Option String)
    (nonInteractive : Bool) (userNs : String)
    (h : process_directory files chunker = []) :
    main_run true true files chunker embed_fn batchSizeArg nsProvided
      nonInteractive userNs = ⟨1, 0, [], true⟩ := by
  simp [main_run, h]

/-- Claim C9, witness: an empty traversal collects nothing and the run aborts
with exit code 1, zero embedding calls and zero writes. -/
theorem no_documents_aborts_witness :
    main_run true true [] (fun _ => []) (fun _ => ([] : List Nat)) none none
      true "" = ⟨1, 0, [], true⟩ :=
  no_documents_aborts Nat [] (fun _ => []) (fun _ => []) none none true "" rfl

/-- Claim C10: an extraction failure makes its file contribute zero chunks,
and the traversal of the remaining files is unaffected — collecting with the
failed file present yields exactly the documents of the run without it, so no
extraction error aborts the run. -/
theorem extraction_failure_skipped (e : String)
    (chunker : String → List String)
    (pre post : List (Except String String)) :
    process_file (Except.error e) chunker = [] ∧
    process_directory (pre ++ Except.error e :: post) chunker =
      process_directory (pre ++ post) chunker := by
  refine ⟨rfl, ?_⟩
  unfold process_directory
  have h0 : process_file (Except.error e) chunker = [] := rfl
  rw [List.map_append, List.map_cons, h0, pdAux_insert_nil, ← List.map_append]

end Piney
